import Mathlib

/-!
Verification of the model-construction and CSC-assembly layer of the
`coin_cbc` crate (`src/lib.rs`).  The `Model` builder, its mutators and the
`to_raw` assembler are embedded shallowly; the external engine (the `raw`
module) is modelled as a record of the calls `to_raw` issues to it.
-/

namespace CoinCbc

/-- Embedding of the `f64` values the code distinguishes.  The only
floating-point operation the builder performs is the IEEE comparison
`weight == 0.0` inside `set_weight`; `F64.isZero` reproduces its exact
semantics (`-0.0 == 0.0` is true, `NaN == 0.0` is false).  Finite nonzero
magnitudes are carried as rationals. -/
inductive F64 where
  | nan : F64
  | inf : F64
  | negInf : F64
  | negZero : F64
  | fin : ℚ → F64
  deriving DecidableEq, Repr

/-- The IEEE comparison `x == 0.0` used by `Model::set_weight`. -/
def F64.isZero : F64 → Bool
  | F64.negZero => true
  | F64.fin q => q == 0
  | _ => false

/-- Modelled from the spec: the objective direction of the `raw` engine
module (`src/raw.rs` is not under `src/`); `Minimize` or `Maximize`,
default `Minimize`. -/
inductive Sense where
  | Minimize : Sense
  | Maximize : Sense
  deriving DecidableEq, Repr

/-- A column's weight map: `BTreeMap<Row, f64>` embedded as an association
list sorted by strictly increasing row index (the BTreeMap representation
invariant). -/
abbrev WMap := List (Nat × F64)

/-- Keys strictly increase along the list: the `BTreeMap` invariant. -/
def WMap.SortedKeys (w : WMap) : Prop :=
  List.Pairwise (fun a b => a.1 < b.1) w

instance (w : WMap) : Decidable (WMap.SortedKeys w) :=
  List.instDecidablePairwise w

/-- `BTreeMap::insert`: insert or overwrite, keeping keys sorted. -/
def insertSorted (k : Nat) (v : F64) : WMap → WMap
  | [] => [(k, v)]
  | p :: t =>
    if k < p.1 then (k, v) :: p :: t
    else if k = p.1 then (k, v) :: t
    else p :: insertSorted k v t

/-- `BTreeMap::remove`: drop the entry with the given key, if present. -/
def removeKey (k : Nat) : WMap → WMap
  | [] => []
  | p :: t => if k = p.1 then t else p :: removeKey k t

/-- `BTreeMap::get`: look up a key. -/
def lookupKey (k : Nat) : WMap → Option F64
  | [] => none
  | p :: t => if k = p.1 then some p.2 else lookupKey k t

/-- The `Model` builder of `src/lib.rs`.  `Col`/`Row` handles are carried
as their underlying indices (`Col::as_usize`/`Row::as_usize`). -/
structure Model where
  num_cols : Nat
  num_rows : Nat
  col_lower : List F64
  col_upper : List F64
  row_lower : List F64
  row_upper : List F64
  obj_coefficients : List F64
  weights : List WMap
  is_integer : List Bool
  sense : Sense
  deriving DecidableEq, Repr

/-- `Model::default()`: the empty model. -/
def Model.empty : Model :=
  { num_cols := 0, num_rows := 0, col_lower := [], col_upper := [],
    row_lower := [], row_upper := [], obj_coefficients := [], weights := [],
    is_integer := [], sense := Sense.Minimize }

/-- Rust `v[i] = a`: write in place, or panic (`none`) when `i` is out of
bounds. -/
def setNth {α : Type} (l : List α) (i : Nat) (a : α) : Option (List α) :=
  if i < l.length then some (l.set i a) else none

/-- `Model::add_col`: append a column with the default objective
coefficient `0`, empty weight map, not integer, bounds `[0, +inf)`; the
returned handle is the previous column count. -/
def Model.add_col (m : Model) : Nat × Model :=
  (m.num_cols,
    { m with
      num_cols := m.num_cols + 1,
      obj_coefficients := m.obj_coefficients ++ [F64.fin 0],
      weights := m.weights ++ [[]],
      is_integer := m.is_integer ++ [false],
      col_lower := m.col_lower ++ [F64.fin 0],
      col_upper := m.col_upper ++ [F64.inf] })

/-- `Model::add_row`: append a row with bounds `(-inf, +inf)`; the
returned handle is the previous row count. -/
def Model.add_row (m : Model) : Nat × Model :=
  (m.num_rows,
    { m with
      num_rows := m.num_rows + 1,
      row_lower := m.row_lower ++ [F64.negInf],
      row_upper := m.row_upper ++ [F64.inf] })

/-- `Model::set_weight`: if `weight == 0.0` remove the row's entry from the
column's map, else insert/overwrite it.  Indexing `weights[col]` panics
(`none`) when `col` is out of bounds; the row is used only as a map key. -/
def Model.set_weight (m : Model) (row col : Nat) (weight : F64) :
    Option Model :=
  match m.weights.get? col with
  | none => none
  | some w =>
    some { m with
      weights :=
        m.weights.set col
          (if weight.isZero then removeKey row w
            else insertSorted row weight w) }

/-- `Model::set_integer`. -/
def Model.set_integer (m : Model) (col : Nat) : Option Model :=
  (setNth m.is_integer col true).map fun l => { m with is_integer := l }

/-- `Model::set_continuous`. -/
def Model.set_continuous (m : Model) (col : Nat) : Option Model :=
  (setNth m.is_integer col false).map fun l => { m with is_integer := l }

/-- `Model::set_col_upper`. -/
def Model.set_col_upper (m : Model) (col : Nat) (value : F64) :
    Option Model :=
  (setNth m.col_upper col value).map fun l => { m with col_upper := l }

/-- `Model::set_col_lower`. -/
def Model.set_col_lower (m : Model) (col : Nat) (value : F64) :
    Option Model :=
  (setNth m.col_lower col value).map fun l => { m with col_lower := l }

/-- `Model::set_obj_coeff`. -/
def Model.set_obj_coeff (m : Model) (col : Nat) (value : F64) :
    Option Model :=
  (setNth m.obj_coefficients col value).map fun l =>
    { m with obj_coefficients := l }

/-- `Model::set_row_upper`. -/
def Model.set_row_upper (m : Model) (row : Nat) (value : F64) :
    Option Model :=
  (setNth m.row_upper row value).map fun l => { m with row_upper := l }

/-- `Model::set_row_lower`. -/
def Model.set_row_lower (m : Model) (row : Nat) (value : F64) :
    Option Model :=
  (setNth m.row_lower row value).map fun l => { m with row_lower := l }

/-- `Model::set_binary`: `set_integer`, then `set_col_lower(col, 0.)`,
then `set_col_upper(col, 1.)`, in that order. -/
def Model.set_binary (m : Model) (col : Nat) : Option Model :=
  (m.set_integer col).bind fun m1 =>
    (m1.set_col_lower col (F64.fin 0)).bind fun m2 =>
      m2.set_col_upper col (F64.fin 1)

/-- `Model::set_obj_sense`. -/
def Model.set_obj_sense (m : Model) (s : Sense) : Model :=
  { m with sense := s }

/-- An integrality call issued to the engine by `to_raw`. -/
inductive IntCall where
  | setInteger : Nat → IntCall
  | setContinuous : Nat → IntCall
  deriving DecidableEq, Repr

/-- Modelled from the spec: the external engine instance (`raw::Model`,
whose source `src/raw.rs` is not under `src/`).  Per the engine call
contract of the spec it records the arguments of `load_problem`, the
per-column integrality calls in order, and the objective sense. -/
structure RawModel where
  num_cols : Nat
  num_rows : Nat
  start : List Nat
  index : List Nat
  value : List F64
  col_lower : List F64
  col_upper : List F64
  obj_coefficients : List F64
  row_lower : List F64
  row_upper : List F64
  integrality : List IntCall
  sense : Sense
  deriving DecidableEq, Repr

/-- The inner loop of `Model::to_raw`: push each entry's row index and
coefficient of one column's weight map onto `index`/`value`. -/
def pushEntries (acc : List Nat × List F64) (colw : WMap) :
    List Nat × List F64 :=
  colw.foldl (fun a p => (a.1 ++ [p.1], a.2 ++ [p.2])) acc

/-- The CSC-assembly loop of `Model::to_raw`: `start` begins as `[0]`;
after each column's entries are pushed, the new length of `index` is
pushed onto `start`. -/
def cscStep (acc : List Nat × List Nat × List F64) (colw : WMap) :
    List Nat × List Nat × List F64 :=
  let iv := pushEntries (acc.2.1, acc.2.2) colw
  (acc.1 ++ [iv.1.length], iv.1, iv.2)

/-- The `(start, index, value)` arrays assembled by `Model::to_raw`. -/
def Model.cscArrays (m : Model) : List Nat × List Nat × List F64 :=
  m.weights.foldl cscStep ([0], [], [])

/-- The integrality loop of `Model::to_raw`: for every column, in order,
`set_integer` when its flag is true and `set_continuous` otherwise. -/
def integralityCalls (flags : List Bool) : List IntCall :=
  flags.enum.map fun p =>
    if p.2 then IntCall.setInteger p.1 else IntCall.setContinuous p.1

/-- `Model::to_raw`: assemble the CSC arrays, load the problem into a
fresh engine instance, issue the per-column integrality calls and set the
objective sense. -/
def Model.to_raw (m : Model) : RawModel :=
  let csc := m.cscArrays
  { num_cols := m.num_cols
    num_rows := m.num_rows
    start := csc.1
    index := csc.2.1
    value := csc.2.2
    col_lower := m.col_lower
    col_upper := m.col_upper
    obj_coefficients := m.obj_coefficients
    row_lower := m.row_lower
    row_upper := m.row_upper
    integrality := integralityCalls m.is_integer
    sense := m.sense }

/-- One builder operation, for stating "any sequence of operations". -/
inductive Op where
  | addCol : Op
  | addRow : Op
  | setWeight : Nat → Nat → F64 → Op
  | setInteger : Nat → Op
  | setContinuous : Nat → Op
  | setBinary : Nat → Op
  | setColUpper : Nat → F64 → Op
  | setColLower : Nat → F64 → Op
  | setObjCoeff : Nat → F64 → Op
  | setRowUpper : Nat → F64 → Op
  | setRowLower : Nat → F64 → Op
  | setObjSense : Sense → Op
  deriving DecidableEq, Repr

/-- Apply one operation; `none` is a panic. -/
def applyOp (m : Model) : Op → Option Model
  | Op.addCol => some (m.add_col).2
  | Op.addRow => some (m.add_row).2
  | Op.setWeight r c w => m.set_weight r c w
  | Op.setInteger c => m.set_integer c
  | Op.setContinuous c => m.set_continuous c
  | Op.setBinary c => m.set_binary c
  | Op.setColUpper c v => m.set_col_upper c v
  | Op.setColLower c v => m.set_col_lower c v
  | Op.setObjCoeff c v => m.set_obj_coeff c v
  | Op.setRowUpper r v => m.set_row_upper r v
  | Op.setRowLower r v => m.set_row_lower r v
  | Op.setObjSense s => some (m.set_obj_sense s)

/-- Run a sequence of operations from a starting model. -/
def runOps : Model → List Op → Option Model
  | m, [] => some m
  | m, o :: t =>
    match applyOp m o with
    | none => none
    | some m2 => runOps m2 t

/-- A model reachable from `Model::default()` by some operation
sequence that does not panic. -/
def Reachable (m : Model) : Prop :=
  ∃ ops : List Op, runOps Model.empty ops = some m

/-- Every per-column vector has length `num_cols` and every per-row
vector has length `num_rows`. -/
def Model.WF (m : Model) : Prop :=
  m.col_lower.length = m.num_cols ∧ m.col_upper.length = m.num_cols ∧
  m.obj_coefficients.length = m.num_cols ∧
  m.weights.length = m.num_cols ∧ m.is_integer.length = m.num_cols ∧
  m.row_lower.length = m.num_rows ∧ m.row_upper.length = m.num_rows

/-- Every column's weight map is sorted by strictly increasing row index
(the `BTreeMap` representation invariant). -/
def Model.SortedWeights (m : Model) : Prop :=
  ∀ w ∈ m.weights, WMap.SortedKeys w

/-- No stored weight compares IEEE-equal to `0.0`. -/
def Model.NoZeroWeights (m : Model) : Prop :=
  ∀ w ∈ m.weights, ∀ p ∈ w, F64.isZero p.2 = false

/-- The conjunction of all three representation invariants. -/
def Model.Inv (m : Model) : Prop :=
  m.WF ∧ m.SortedWeights ∧ m.NoZeroWeights

instance (m : Model) : Decidable m.WF := by
  unfold Model.WF
  infer_instance

instance (m : Model) : Decidable m.SortedWeights := by
  unfold Model.SortedWeights
  infer_instance

instance (m : Model) : Decidable m.NoZeroWeights := by
  unfold Model.NoZeroWeights
  infer_instance

instance (m : Model) : Decidable m.Inv := by
  unfold Model.Inv
  infer_instance

/-- Total length of the first columns' weight maps: the cumulative entry
count the `start` array records. -/
def sumLen (ws : List WMap) : Nat :=
  (ws.map List.length).sum

/-- Closed form of the `start` entries after the initial `0`: running
cumulative entry counts starting from `base`. -/
def startSums (base : Nat) : List WMap → List Nat
  | [] => []
  | w :: t => (base + w.length) :: startSums (base + w.length) t

/-- A one-column, one-row model (`add_row` then `add_col` on the default
model), used to instantiate universally quantified statements. -/
def mColRow : Model :=
  Model.mk 1 1 [F64.fin 0] [F64.inf] [F64.negInf] [F64.inf] [F64.fin 0]
    [[]] [false] Sense.Minimize

/-- The spec's two-column example: `add_row`, then two `add_col`s, then
`set_weight(row0, col1, 2.)`, giving columns with weight sets `{}` and
`{row0: 2}`. -/
def exampleOps : List Op :=
  [Op.addRow, Op.addCol, Op.addCol, Op.setWeight 0 1 (F64.fin 2)]

/-! ### Properties of the sorted weight maps -/

theorem mem_insertSorted {k : Nat} {v : F64} {l : WMap} {p : Nat × F64}
    (h : p ∈ insertSorted k v l) : p = (k, v) ∨ p ∈ l := by
  induction l with
  | nil =>
    simp only [insertSorted, List.mem_singleton] at h
    exact Or.inl h
  | cons q t ih =>
    simp only [insertSorted] at h
    split at h
    · rcases List.mem_cons.mp h with h1 | h1
      · exact Or.inl h1
      · exact Or.inr h1
    · split at h
      · rcases List.mem_cons.mp h with h1 | h1
        · exact Or.inl h1
        · exact Or.inr (List.mem_cons_of_mem _ h1)
      · rcases List.mem_cons.mp h with h1 | h1
        · exact Or.inr (List.mem_cons.mpr (Or.inl h1))
        · rcases ih h1 with h2 | h2
          · exact Or.inl h2
          · exact Or.inr (List.mem_cons_of_mem _ h2)

theorem insertSorted_sorted {k : Nat} {v : F64} {l : WMap}
    (h : WMap.SortedKeys l) : WMap.SortedKeys (insertSorted k v l) := by
  induction l with
  | nil => simp [insertSorted, WMap.SortedKeys]
  | cons q t ih =>
    rcases List.pairwise_cons.mp h with ⟨hq, ht⟩
    simp only [insertSorted]
    by_cases h1 : k < q.1
    · rw [if_pos h1]
      refine List.pairwise_cons.mpr ⟨?_, h⟩
      intro b hb
      rcases List.mem_cons.mp hb with hb | hb
      · subst hb; exact h1
      · exact lt_trans h1 (hq b hb)
    · by_cases h2 : k = q.1
      · rw [if_neg h1, if_pos h2]
        refine List.pairwise_cons.mpr ⟨?_, ht⟩
        intro b hb
        show k < b.1
        rw [h2]
        exact hq b hb
      · rw [if_neg h1, if_neg h2]
        refine List.pairwise_cons.mpr ⟨?_, ih ht⟩
        intro b hb
        rcases mem_insertSorted hb with hb | hb
        · subst hb
          show q.1 < k
          omega
        · exact hq b hb

theorem removeKey_sublist (k : Nat) (l : WMap) :
    List.Sublist (removeKey k l) l := by
  induction l with
  | nil => simp [removeKey]
  | cons q t ih =>
    simp only [removeKey]
    by_cases h : k = q.1
    · rw [if_pos h]
      exact List.sublist_cons_self q t
    · rw [if_neg h]
      exact List.Sublist.cons₂ q ih

theorem removeKey_sorted {k : Nat} {l : WMap} (h : WMap.SortedKeys l) :
    WMap.SortedKeys (removeKey k l) :=
  h.sublist (removeKey_sublist k l)

theorem mem_removeKey {k : Nat} {l : WMap} {p : Nat × F64}
    (h : p ∈ removeKey k l) : p ∈ l :=
  (removeKey_sublist k l).mem h

theorem lookupKey_insertSorted (k : Nat) (v : F64) (l : WMap) :
    lookupKey k (insertSorted k v l) = some v := by
  induction l with
  | nil => simp [insertSorted, lookupKey]
  | cons q t ih =>
    simp only [insertSorted]
    by_cases h1 : k < q.1
    · rw [if_pos h1]
      simp [lookupKey]
    · by_cases h2 : k = q.1
      · rw [if_neg h1, if_pos h2]
        simp [lookupKey]
      · rw [if_neg h1, if_neg h2]
        simp only [lookupKey]
        rw [if_neg h2]
        exact ih

theorem lookupKey_eq_none {k : Nat} {l : WMap}
    (h : ∀ p ∈ l, k ≠ p.1) : lookupKey k l = none := by
  induction l with
  | nil => rfl
  | cons q t ih =>
    simp only [lookupKey]
    rw [if_neg (h q (List.mem_cons_self q t))]
    exact ih fun p hp => h p (List.mem_cons_of_mem q hp)

theorem lookupKey_removeKey {k : Nat} {l : WMap}
    (h : WMap.SortedKeys l) : lookupKey k (removeKey k l) = none := by
  induction l with
  | nil => rfl
  | cons q t ih =>
    rcases List.pairwise_cons.mp h with ⟨hq, ht⟩
    simp only [removeKey]
    by_cases h1 : k = q.1
    · rw [if_pos h1]
      refine lookupKey_eq_none fun p hp => ?_
      have := hq p hp
      omega
    · rw [if_neg h1]
      simp only [lookupKey]
      rw [if_neg h1]
      exact ih ht

theorem removeKey_eq_self {k : Nat} {l : WMap}
    (h : ∀ p ∈ l, k ≠ p.1) : removeKey k l = l := by
  induction l with
  | nil => rfl
  | cons q t ih =>
    simp only [removeKey]
    rw [if_neg (h q (List.mem_cons_self q t))]
    rw [ih fun p hp => h p (List.mem_cons_of_mem q hp)]

theorem not_mem_removeKey {k : Nat} {l : WMap} (h : WMap.SortedKeys l) :
    ∀ p ∈ removeKey k l, k ≠ p.1 := by
  induction l with
  | nil => intro p hp; simp [removeKey] at hp
  | cons q t ih =>
    rcases List.pairwise_cons.mp h with ⟨hq, ht⟩
    intro p hp
    simp only [removeKey] at hp
    by_cases h1 : k = q.1
    · rw [if_pos h1] at hp
      have := hq p hp
      omega
    · rw [if_neg h1] at hp
      rcases List.mem_cons.mp hp with hp | hp
      · subst hp; exact h1
      · exact ih ht p hp

theorem removeKey_idem {k : Nat} {l : WMap} (h : WMap.SortedKeys l) :
    removeKey k (removeKey k l) = removeKey k l :=
  removeKey_eq_self (not_mem_removeKey h)

theorem insertSorted_idem (k : Nat) (v : F64) (l : WMap) :
    insertSorted k v (insertSorted k v l) = insertSorted k v l := by
  induction l with
  | nil => simp [insertSorted]
  | cons q t ih =>
    simp only [insertSorted]
    by_cases h1 : k < q.1
    · rw [if_pos h1]
      simp [insertSorted, lt_irrefl]
    · by_cases h2 : k = q.1
      · rw [if_neg h1, if_pos h2]
        simp [insertSorted, lt_irrefl]
      · rw [if_neg h1, if_neg h2]
        simp only [insertSorted]
        rw [if_neg h1, if_neg h2, ih]

theorem self_mem_insertSorted (k : Nat) (v : F64) (l : WMap) :
    k ∈ (insertSorted k v l).map Prod.fst := by
  induction l with
  | nil => simp [insertSorted]
  | cons q t ih =>
    simp only [insertSorted]
    by_cases h1 : k < q.1
    · rw [if_pos h1]; simp
    · by_cases h2 : k = q.1
      · rw [if_neg h1, if_pos h2]; simp
      · rw [if_neg h1, if_neg h2]
        simp only [List.map_cons, List.mem_cons]
        exact Or.inr ih

/-! ### Model invariants and their preservation -/

theorem empty_inv : Model.empty.Inv := by
  refine ⟨⟨rfl, rfl, rfl, rfl, rfl, rfl, rfl⟩, ?_, ?_⟩ <;>
    intro w hw <;> simp [Model.empty] at hw

theorem setNth_eq_some {α : Type} {l l2 : List α} {i : Nat} {a : α}
    (h : setNth l i a = some l2) : l2 = l.set i a ∧ i < l.length := by
  unfold setNth at h
  split at h
  · exact ⟨(Option.some.inj h).symm, by assumption⟩
  · cases h

theorem add_col_inv {m : Model} (h : m.Inv) : (m.add_col).2.Inv := by
  rcases h with ⟨⟨a1, a2, a3, a4, a5, a6, a7⟩, hs, hz⟩
  refine ⟨⟨?_, ?_, ?_, ?_, ?_, ?_, ?_⟩, ?_, ?_⟩
  · simp [Model.add_col, a1]
  · simp [Model.add_col, a2]
  · simp [Model.add_col, a3]
  · simp [Model.add_col, a4]
  · simp [Model.add_col, a5]
  · simp [Model.add_col, a6]
  · simp [Model.add_col, a7]
  · intro w hw
    simp only [Model.add_col, List.mem_append, List.mem_singleton] at hw
    rcases hw with hw | hw
    · exact hs w hw
    · subst hw; simp [WMap.SortedKeys]
  · intro w hw
    simp only [Model.add_col, List.mem_append, List.mem_singleton] at hw
    rcases hw with hw | hw
    · exact hz w hw
    · subst hw; intro p hp; simp at hp

theorem add_row_inv {m : Model} (h : m.Inv) : (m.add_row).2.Inv := by
  rcases h with ⟨⟨a1, a2, a3, a4, a5, a6, a7⟩, hs, hz⟩
  refine ⟨⟨?_, ?_, ?_, ?_, ?_, ?_, ?_⟩, ?_, ?_⟩
  · simp [Model.add_row, a1]
  · simp [Model.add_row, a2]
  · simp [Model.add_row, a3]
  · simp [Model.add_row, a4]
  · simp [Model.add_row, a5]
  · simp [Model.add_row, a6]
  · simp [Model.add_row, a7]
  · exact hs
  · exact hz

theorem set_weight_inv {m m2 : Model} {r c : Nat} {w : F64}
    (h : m.Inv) (hs : m.set_weight r c w = some m2) : m2.Inv := by
  rcases h with ⟨⟨a1, a2, a3, a4, a5, a6, a7⟩, hsort, hnz⟩
  unfold Model.set_weight at hs
  cases hget : m.weights.get? c with
  | none => rw [hget] at hs; cases hs
  | some wc =>
    rw [hget] at hs
    cases Option.some.inj hs
    have hwcmem : wc ∈ m.weights := List.get?_mem hget
    refine ⟨⟨a1, a2, a3, by simpa using a4, a5, a6, a7⟩, ?_, ?_⟩
    · intro w' hw'
      rcases List.mem_or_eq_of_mem_set hw' with hw' | hw'
      · exact hsort w' hw'
      · subst hw'
        by_cases hzw : w.isZero
        · simpa [hzw] using removeKey_sorted (hsort wc hwcmem)
        · simpa [hzw] using insertSorted_sorted (hsort wc hwcmem)
    · intro w' hw' p hp
      rcases List.mem_or_eq_of_mem_set hw' with hw' | hw'
      · exact hnz w' hw' p hp
      · subst hw'
        by_cases hzw : w.isZero
        · rw [if_pos hzw] at hp
          exact hnz wc hwcmem p (mem_removeKey hp)
        · rw [if_neg hzw] at hp
          rcases mem_insertSorted hp with hp | hp
          · subst hp
            simpa using hzw
          · exact hnz wc hwcmem p hp

theorem set_field_inv_integer {m m2 : Model} {c : Nat}
    (h : m.Inv) (hs : m.set_integer c = some m2) : m2.Inv := by
  rcases h with ⟨⟨a1, a2, a3, a4, a5, a6, a7⟩, hsort, hnz⟩
  unfold Model.set_integer at hs
  cases hn : setNth m.is_integer c true with
  | none => rw [hn] at hs; cases hs
  | some l =>
    rw [hn] at hs
    cases Option.some.inj hs
    rcases setNth_eq_some hn with ⟨hl, _⟩
    subst hl
    exact ⟨⟨a1, a2, a3, a4, by simpa using a5, a6, a7⟩, hsort, hnz⟩

theorem set_field_inv_continuous {m m2 : Model} {c : Nat}
    (h : m.Inv) (hs : m.set_continuous c = some m2) : m2.Inv := by
  rcases h with ⟨⟨a1, a2, a3, a4, a5, a6, a7⟩, hsort, hnz⟩
  unfold Model.set_continuous at hs
  cases hn : setNth m.is_integer c false with
  | none => rw [hn] at hs; cases hs
  | some l =>
    rw [hn] at hs
    cases Option.some.inj hs
    rcases setNth_eq_some hn with ⟨hl, _⟩
    subst hl
    exact ⟨⟨a1, a2, a3, a4, by simpa using a5, a6, a7⟩, hsort, hnz⟩

theorem set_col_upper_inv {m m2 : Model} {c : Nat} {v : F64}
    (h : m.Inv) (hs : m.set_col_upper c v = some m2) : m2.Inv := by
  rcases h with ⟨⟨a1, a2, a3, a4, a5, a6, a7⟩, hsort, hnz⟩
  unfold Model.set_col_upper at hs
  cases hn : setNth m.col_upper c v with
  | none => rw [hn] at hs; cases hs
  | some l =>
    rw [hn] at hs
    cases Option.some.inj hs
    rcases setNth_eq_some hn with ⟨hl, _⟩
    subst hl
    exact ⟨⟨a1, by simpa using a2, a3, a4, a5, a6, a7⟩, hsort, hnz⟩

theorem set_col_lower_inv {m m2 : Model} {c : Nat} {v : F64}
    (h : m.Inv) (hs : m.set_col_lower c v = some m2) : m2.Inv := by
  rcases h with ⟨⟨a1, a2, a3, a4, a5, a6, a7⟩, hsort, hnz⟩
  unfold Model.set_col_lower at hs
  cases hn : setNth m.col_lower c v with
  | none => rw [hn] at hs; cases hs
  | some l =>
    rw [hn] at hs
    cases Option.some.inj hs
    rcases setNth_eq_some hn with ⟨hl, _⟩
    subst hl
    exact ⟨⟨by simpa using a1, a2, a3, a4, a5, a6, a7⟩, hsort, hnz⟩

theorem set_obj_coeff_inv {m m2 : Model} {c : Nat} {v : F64}
    (h : m.Inv) (hs : m.set_obj_coeff c v = some m2) : m2.Inv := by
  rcases h with ⟨⟨a1, a2, a3, a4, a5, a6, a7⟩, hsort, hnz⟩
  unfold Model.set_obj_coeff at hs
  cases hn : setNth m.obj_coefficients c v with
  | none => rw [hn] at hs; cases hs
  | some l =>
    rw [hn] at hs
    cases Option.some.inj hs
    rcases setNth_eq_some hn with ⟨hl, _⟩
    subst hl
    exact ⟨⟨a1, a2, by simpa using a3, a4, a5, a6, a7⟩, hsort, hnz⟩

theorem set_row_upper_inv {m m2 : Model} {r : Nat} {v : F64}
    (h : m.Inv) (hs : m.set_row_upper r v = some m2) : m2.Inv := by
  rcases h with ⟨⟨a1, a2, a3, a4, a5, a6, a7⟩, hsort, hnz⟩
  unfold Model.set_row_upper at hs
  cases hn : setNth m.row_upper r v with
  | none => rw [hn] at hs; cases hs
  | some l =>
    rw [hn] at hs
    cases Option.some.inj hs
    rcases setNth_eq_some hn with ⟨hl, _⟩
    subst hl
    exact ⟨⟨a1, a2, a3, a4, a5, a6, by simpa using a7⟩, hsort, hnz⟩

theorem set_row_lower_inv {m m2 : Model} {r : Nat} {v : F64}
    (h : m.Inv) (hs : m.set_row_lower r v = some m2) : m2.Inv := by
  rcases h with ⟨⟨a1, a2, a3, a4, a5, a6, a7⟩, hsort, hnz⟩
  unfold Model.set_row_lower at hs
  cases hn : setNth m.row_lower r v with
  | none => rw [hn] at hs; cases hs
  | some l =>
    rw [hn] at hs
    cases Option.some.inj hs
    rcases setNth_eq_some hn with ⟨hl, _⟩
    subst hl
    exact ⟨⟨a1, a2, a3, a4, a5, by simpa using a6, a7⟩, hsort, hnz⟩

theorem set_binary_inv {m m2 : Model} {c : Nat}
    (h : m.Inv) (hs : m.set_binary c = some m2) : m2.Inv := by
  unfold Model.set_binary at hs
  cases h1 : m.set_integer c with
  | none => rw [h1] at hs; cases hs
  | some ma =>
    rw [h1] at hs
    simp only [Option.bind] at hs
    cases h2 : ma.set_col_lower c (F64.fin 0) with
    | none => rw [h2] at hs; cases hs
    | some mb =>
      rw [h2] at hs
      exact set_col_upper_inv
        (set_col_lower_inv (set_field_inv_integer h h1) h2) hs

theorem applyOp_inv {m m2 : Model} {o : Op}
    (h : m.Inv) (hs : applyOp m o = some m2) : m2.Inv := by
  cases o with
  | addCol =>
    simp only [applyOp] at hs
    cases Option.some.inj hs
    exact add_col_inv h
  | addRow =>
    simp only [applyOp] at hs
    cases Option.some.inj hs
    exact add_row_inv h
  | setWeight r c w =>
    simp only [applyOp] at hs
    exact set_weight_inv h hs
  | setInteger c =>
    simp only [applyOp] at hs
    exact set_field_inv_integer h hs
  | setContinuous c =>
    simp only [applyOp] at hs
    exact set_field_inv_continuous h hs
  | setBinary c =>
    simp only [applyOp] at hs
    exact set_binary_inv h hs
  | setColUpper c v =>
    simp only [applyOp] at hs
    exact set_col_upper_inv h hs
  | setColLower c v =>
    simp only [applyOp] at hs
    exact set_col_lower_inv h hs
  | setObjCoeff c v =>
    simp only [applyOp] at hs
    exact set_obj_coeff_inv h hs
  | setRowUpper r v =>
    simp only [applyOp] at hs
    exact set_row_upper_inv h hs
  | setRowLower r v =>
    simp only [applyOp] at hs
    exact set_row_lower_inv h hs
  | setObjSense s =>
    simp only [applyOp] at hs
    cases Option.some.inj hs
    rcases h with ⟨⟨a1, a2, a3, a4, a5, a6, a7⟩, hsort, hnz⟩
    exact ⟨⟨a1, a2, a3, a4, a5, a6, a7⟩, hsort, hnz⟩

theorem runOps_inv {m m2 : Model} {ops : List Op}
    (h : m.Inv) (hr : runOps m ops = some m2) : m2.Inv := by
  induction ops generalizing m with
  | nil =>
    unfold runOps at hr
    cases Option.some.inj hr
    exact h
  | cons o t ih =>
    unfold runOps at hr
    cases ho : applyOp m o with
    | none => rw [ho] at hr; cases hr
    | some m1 =>
      rw [ho] at hr
      exact ih (applyOp_inv h ho) hr

/-- Every reachable model satisfies all three representation
invariants. -/
theorem reachable_inv {m : Model} (h : Reachable m) : m.Inv := by
  rcases h with ⟨ops, hr⟩
  exact runOps_inv empty_inv hr

/-! ### Closed form of the CSC assembly -/

theorem pushEntries_eq (l : WMap) (a : List Nat × List F64) :
    pushEntries a l = (a.1 ++ l.map Prod.fst, a.2 ++ l.map Prod.snd) := by
  induction l generalizing a with
  | nil => simp [pushEntries]
  | cons p t ih =>
    show pushEntries (a.1 ++ [p.1], a.2 ++ [p.2]) t = _
    rw [ih]
    simp

theorem cscFold_eq (ws : List WMap) (s i : List Nat) (v : List F64) :
    ws.foldl cscStep (s, i, v) =
      (s ++ startSums i.length ws,
       i ++ (ws.map fun w => w.map Prod.fst).flatten,
       v ++ (ws.map fun w => w.map Prod.snd).flatten) := by
  induction ws generalizing s i v with
  | nil => simp [startSums]
  | cons w t ih =>
    have hstep :
        cscStep (s, i, v) w =
          (s ++ [i.length + w.length], i ++ w.map Prod.fst,
            v ++ w.map Prod.snd) := by
      unfold cscStep
      rw [pushEntries_eq]
      simp
    rw [List.foldl_cons, hstep, ih]
    simp [startSums, List.append_assoc]

theorem cscArrays_eq (m : Model) :
    m.cscArrays =
      ([0] ++ startSums 0 m.weights,
       (m.weights.map fun w => w.map Prod.fst).flatten,
       (m.weights.map fun w => w.map Prod.snd).flatten) := by
  unfold Model.cscArrays
  rw [cscFold_eq]
  simp

theorem startSums_length (base : Nat) (ws : List WMap) :
    (startSums base ws).length = ws.length := by
  induction ws generalizing base with
  | nil => rfl
  | cons w t ih => simp [startSums, ih]

theorem startSums_get? (base : Nat) (ws : List WMap) (c : Nat)
    (hc : c < ws.length) :
    (startSums base ws).get? c =
      some (base + sumLen (ws.take (c + 1))) := by
  induction ws generalizing base c with
  | nil => simp at hc
  | cons w t ih =>
    cases c with
    | zero => simp [startSums, sumLen]
    | succ n =>
      have hn : n < t.length := by simpa using hc
      show (startSums (base + w.length) t).get? n = _
      rw [ih (base + w.length) n hn]
      simp only [List.take_succ_cons, sumLen, List.map_cons, List.sum_cons]
      congr 1
      omega

theorem cscStart_get? (ws : List WMap) (c : Nat) (hc : c ≤ ws.length) :
    ([0] ++ startSums 0 ws).get? c = some (sumLen (ws.take c)) := by
  cases c with
  | zero => simp [sumLen]
  | succ n =>
    simp only [List.singleton_append, List.get?_cons_succ]
    rw [startSums_get? 0 ws n (by omega)]
    simp

theorem flatten_drop_take {α : Type} (L : List (List α)) (c : Nat)
    (hc : c < L.length) :
    (L.flatten.drop ((L.map List.length).take c).sum).take
      (L.get ⟨c, hc⟩).length = L.get ⟨c, hc⟩ := by
  rw [List.drop_sum_flatten]
  have hdrop : L.drop c = L.get ⟨c, hc⟩ :: L.drop (c + 1) :=
    (List.get_cons_drop L ⟨c, hc⟩).symm
  rw [hdrop, List.flatten_cons, List.take_left]

theorem sumLen_take_succ (ws : List WMap) (c : Nat) (hc : c < ws.length) :
    sumLen (ws.take (c + 1)) = sumLen (ws.take c) + ws[c].length := by
  induction ws generalizing c with
  | nil => simp at hc
  | cons w t ih =>
    cases c with
    | zero => simp [sumLen]
    | succ n =>
      have hn : n < t.length := by simpa using hc
      simp only [List.take_succ_cons, sumLen, List.map_cons, List.sum_cons,
        List.getElem_cons_succ]
      have := ih n hn
      simp only [sumLen] at this
      omega

theorem csc_slice {α : Type} (ws : List WMap) (f : Nat × F64 → α) (c : Nat)
    (hc : c < ws.length) :
    ((ws.map fun w => w.map f).flatten.drop (sumLen (ws.take c))).take
      ws[c].length = ws[c].map f := by
  have hlen : c < (ws.map fun w => w.map f).length := by simpa using hc
  have h := flatten_drop_take (ws.map fun w => w.map f) c hlen
  rw [List.get_eq_getElem, List.getElem_map] at h
  rw [List.length_map] at h
  have hA : (((ws.map fun w => w.map f).map List.length).take c).sum =
      sumLen (ws.take c) := by
    simp [sumLen, List.map_map, Function.comp_def, List.map_take]
  rw [hA] at h
  exact h

theorem set_weight_some {m m2 : Model} {row col : Nat} {w : F64}
    (h : m.set_weight row col w = some m2) :
    ∃ wc, m.weights.get? col = some wc ∧
      m2 = { m with
        weights := m.weights.set col
          (if w.isZero then removeKey row wc
            else insertSorted row w wc) } := by
  unfold Model.set_weight at h
  cases hget : m.weights.get? col with
  | none => rw [hget] at h; cases h
  | some wc => rw [hget] at h; exact ⟨wc, rfl, (Option.some.inj h).symm⟩

/-! ### The claims -/

/-- C1: `to_raw` assembles the standard CSC encoding: `start` has length
`num_cols + 1` with `start[0] = 0`; for each column `c` in creation order
the entries of its weight map occupy `index`/`value` at positions
`start[c]..start[c+1]` in ascending row order, and `start[c+1]` is the
cumulative entry count; in particular, for a Model whose two columns have
weight sets `{}` and `{row0: 2}`, the assembled arrays are
`start = [0, 0, 1]`, `index = [row0]`, `value = [2]`. -/
theorem claim_C1 (m : Model) (hwf : m.weights.length = m.num_cols)
    (hsw : m.SortedWeights) :
    (m.to_raw).start.length = m.num_cols + 1 ∧
    (m.to_raw).start.get? 0 = some 0 ∧
    (∀ c : Nat, c < m.num_cols →
      ∃ a w, (m.to_raw).start.get? c = some a ∧
        m.weights.get? c = some w ∧
        (m.to_raw).start.get? (c + 1) = some (a + w.length) ∧
        ((m.to_raw).index.drop a).take w.length = w.map Prod.fst ∧
        ((m.to_raw).value.drop a).take w.length = w.map Prod.snd ∧
        List.Pairwise (fun x y => x < y) (w.map Prod.fst)) ∧
    (∃ mex, runOps Model.empty exampleOps = some mex ∧
      (mex.to_raw).start = [0, 0, 1] ∧
      (mex.to_raw).index = [0] ∧
      (mex.to_raw).value = [F64.fin 2]) := by
  have hstart : (m.to_raw).start = [0] ++ startSums 0 m.weights := by
    simp [Model.to_raw, cscArrays_eq]
  have hindex :
      (m.to_raw).index = (m.weights.map fun w => w.map Prod.fst).flatten := by
    simp [Model.to_raw, cscArrays_eq]
  have hvalue :
      (m.to_raw).value = (m.weights.map fun w => w.map Prod.snd).flatten := by
    simp [Model.to_raw, cscArrays_eq]
  refine ⟨?_, ?_, ?_, ?_⟩
  · rw [hstart]
    simp [startSums_length, hwf]
  · rw [hstart]
    simp
  · intro c hc
    have hc' : c < m.weights.length := by omega
    refine ⟨sumLen (m.weights.take c), m.weights[c], ?_, ?_, ?_, ?_, ?_, ?_⟩
    · rw [hstart]
      exact cscStart_get? m.weights c (Nat.le_of_lt hc')
    · rw [List.get?_eq_getElem?]
      exact List.getElem?_eq_getElem hc'
    · rw [hstart, cscStart_get? m.weights (c + 1) hc']
      rw [sumLen_take_succ m.weights c hc']
    · rw [hindex]
      exact csc_slice m.weights Prod.fst c hc'
    · rw [hvalue]
      exact csc_slice m.weights Prod.snd c hc'
    · exact List.pairwise_map.mpr (hsw m.weights[c] (List.getElem_mem hc'))
  · exact ⟨_, rfl, by decide, by decide, by decide⟩

/-- Witness for C1 at the spec's two-column example model. -/
theorem claim_C1_witness :
    ((Model.mk 2 1 [F64.fin 0, F64.fin 0] [F64.inf, F64.inf] [F64.negInf]
        [F64.inf] [F64.fin 0, F64.fin 0] [[], [(0, F64.fin 2)]]
        [false, false] Sense.Minimize).to_raw).start.length = 2 + 1 :=
  (claim_C1 _ (by decide) (by decide)).1

theorem set_weight_get {m m2 : Model} {row col : Nat} {w : F64}
    (h : m.set_weight row col w = some m2) :
    ∃ wc, m.weights.get? col = some wc ∧
      m2.weights.get? col =
        some (if w.isZero then removeKey row wc
          else insertSorted row w wc) ∧
      m2.num_cols = m.num_cols ∧ m2.num_rows = m.num_rows := by
  obtain ⟨wc, hget, hm⟩ := set_weight_some h
  subst hm
  have hlt : col < m.weights.length := by
    rcases List.get?_eq_some.mp hget with ⟨hh, _⟩
    exact hh
  refine ⟨wc, hget, ?_, rfl, rfl⟩
  rw [List.get?_eq_getElem?]
  exact List.getElem?_set_self hlt

/-- C2: no weight map ever stores an entry whose value compares equal to
`0.0`; setting a weight and then setting it to `0` removes the row's
entry, and setting a nonzero weight makes the row look up to exactly that
weight. -/
theorem claim_C2 :
    (∀ m : Model, Reachable m → m.NoZeroWeights) ∧
    (∀ (m m1 m2 : Model) (row col : Nat) (w : F64), Reachable m →
      m.set_weight row col w = some m1 →
      m1.set_weight row col (F64.fin 0) = some m2 →
      ∀ wc, m2.weights.get? col = some wc → lookupKey row wc = none) ∧
    (∀ (m m1 : Model) (row col : Nat) (w : F64), w.isZero = false →
      m.set_weight row col w = some m1 →
      ∀ wc, m1.weights.get? col = some wc → lookupKey row wc = some w) := by
  refine ⟨fun m hr => (reachable_inv hr).2.2, ?_, ?_⟩
  · intro m m1 m2 row col w hr h1 h2 wc hwc
    have hinv1 := set_weight_inv (reachable_inv hr) h1
    obtain ⟨wc1, hget1, hget1', _, _⟩ := set_weight_get h2
    rw [if_pos (by decide : (F64.fin 0).isZero = true)] at hget1'
    have hwc' : wc = removeKey row wc1 :=
      Option.some.inj (hwc.symm.trans hget1')
    subst hwc'
    exact lookupKey_removeKey (hinv1.2.1 wc1 (List.get?_mem hget1))
  · intro m m1 row col w hzw h1 wc hwc
    obtain ⟨wc1, hget1, hget1', _, _⟩ := set_weight_get h1
    rw [if_neg (by simp [hzw] : ¬w.isZero = true)] at hget1'
    have hwc' : wc = insertSorted row w wc1 :=
      Option.some.inj (hwc.symm.trans hget1')
    subst hwc'
    exact lookupKey_insertSorted row w wc1

/-- Witness for C2 on the one-column, one-row model: set weight `3` on
`(row 0, col 0)`, then set it to `0` — the entry is gone; after the first
set alone it reads back as `3`. -/
theorem claim_C2_witness :
    lookupKey 0 ([] : WMap) = none ∧
    lookupKey 0 [(0, F64.fin 3)] = some (F64.fin 3) :=
  ⟨claim_C2.2.1 mColRow { mColRow with weights := [[(0, F64.fin 3)]] }
      { mColRow with weights := [[]] } 0 0 (F64.fin 3)
      ⟨[Op.addRow, Op.addCol], by decide⟩ (by decide) (by decide) []
      (by decide),
    claim_C2.2.2 mColRow { mColRow with weights := [[(0, F64.fin 3)]] }
      0 0 (F64.fin 3) (by decide) (by decide) [(0, F64.fin 3)] (by decide)⟩

/-- C3: `add_col`/`add_row` return strictly increasing handles — each new
handle is the previous count — and on every reachable model all
per-column vectors have length `num_cols` and all per-row vectors have
length `num_rows`. -/
theorem claim_C3 :
    (∀ m : Model, Reachable m → m.WF) ∧
    (∀ m : Model,
      (m.add_col).1 = m.num_cols ∧
      (m.add_col).2.num_cols = m.num_cols + 1 ∧
      (m.add_col).1 < ((m.add_col).2.add_col).1 ∧
      (m.add_row).1 = m.num_rows ∧
      (m.add_row).2.num_rows = m.num_rows + 1 ∧
      (m.add_row).1 < ((m.add_row).2.add_row).1) := by
  refine ⟨fun m hr => (reachable_inv hr).1, fun m => ?_⟩
  refine ⟨rfl, rfl, ?_, rfl, rfl, ?_⟩
  · show m.num_cols < m.num_cols + 1
    omega
  · show m.num_rows < m.num_rows + 1
    omega

/-- Witness for C3 at the one-column, one-row model. -/
theorem claim_C3_witness :
    mColRow.WF ∧ (mColRow.add_col).1 = mColRow.num_cols :=
  ⟨claim_C3.1 mColRow ⟨[Op.addRow, Op.addCol], by decide⟩,
    (claim_C3.2 mColRow).1⟩

theorem set_weight_eq {m : Model} {row col : Nat} {w : F64} {wc : WMap}
    (hget : m.weights.get? col = some wc) :
    m.set_weight row col w =
      some { m with
        weights := m.weights.set col
          (if w.isZero then removeKey row wc
            else insertSorted row w wc) } := by
  unfold Model.set_weight
  rw [hget]

theorem set_integer_some {m m2 : Model} {col : Nat}
    (h : m.set_integer col = some m2) :
    col < m.is_integer.length ∧
    m2 = { m with is_integer := m.is_integer.set col true } := by
  unfold Model.set_integer at h
  cases hn : setNth m.is_integer col true with
  | none => rw [hn] at h; cases h
  | some l =>
    rw [hn] at h
    obtain ⟨hl, hlt⟩ := setNth_eq_some hn
    cases Option.some.inj h
    subst hl
    exact ⟨hlt, rfl⟩

theorem set_col_lower_some {m m2 : Model} {col : Nat} {v : F64}
    (h : m.set_col_lower col v = some m2) :
    col < m.col_lower.length ∧
    m2 = { m with col_lower := m.col_lower.set col v } := by
  unfold Model.set_col_lower at h
  cases hn : setNth m.col_lower col v with
  | none => rw [hn] at h; cases h
  | some l =>
    rw [hn] at h
    obtain ⟨hl, hlt⟩ := setNth_eq_some hn
    cases Option.some.inj h
    subst hl
    exact ⟨hlt, rfl⟩

theorem set_col_upper_some {m m2 : Model} {col : Nat} {v : F64}
    (h : m.set_col_upper col v = some m2) :
    col < m.col_upper.length ∧
    m2 = { m with col_upper := m.col_upper.set col v } := by
  unfold Model.set_col_upper at h
  cases hn : setNth m.col_upper col v with
  | none => rw [hn] at h; cases h
  | some l =>
    rw [hn] at h
    obtain ⟨hl, hlt⟩ := setNth_eq_some hn
    cases Option.some.inj h
    subst hl
    exact ⟨hlt, rfl⟩

/-- C5: `set_binary` is exactly `set_integer`; `set_col_lower(col, 0)`;
`set_col_upper(col, 1)` in that order, and afterwards the column is
integer with bounds `[0, 1]`, whatever the prior state was. -/
theorem claim_C5 (m : Model) (col : Nat) :
    (m.set_binary col =
      (m.set_integer col).bind fun m1 =>
        (m1.set_col_lower col (F64.fin 0)).bind fun m2 =>
          m2.set_col_upper col (F64.fin 1)) ∧
    (∀ m2, m.set_binary col = some m2 →
      m2.is_integer.get? col = some true ∧
      m2.col_lower.get? col = some (F64.fin 0) ∧
      m2.col_upper.get? col = some (F64.fin 1)) := by
  refine ⟨rfl, ?_⟩
  intro m2 h
  unfold Model.set_binary at h
  cases hA : m.set_integer col with
  | none => rw [hA] at h; cases h
  | some mA =>
    rw [hA, Option.some_bind] at h
    cases hB : mA.set_col_lower col (F64.fin 0) with
    | none => rw [hB] at h; cases h
    | some mB =>
      rw [hB, Option.some_bind] at h
      obtain ⟨hltA, hmA⟩ := set_integer_some hA
      obtain ⟨hltB, hmB⟩ := set_col_lower_some hB
      obtain ⟨hltC, hmC⟩ := set_col_upper_some h
      subst hmC
      subst hmB
      subst hmA
      refine ⟨?_, ?_, ?_⟩
      · show (m.is_integer.set col true).get? col = some true
        rw [List.get?_eq_getElem?]
        exact List.getElem?_set_self hltA
      · show (m.col_lower.set col (F64.fin 0)).get? col = some (F64.fin 0)
        rw [List.get?_eq_getElem?]
        exact List.getElem?_set_self hltB
      · show (m.col_upper.set col (F64.fin 1)).get? col = some (F64.fin 1)
        rw [List.get?_eq_getElem?]
        exact List.getElem?_set_self (by simpa using hltC)

/-- Witness for C5 on the one-column, one-row model. -/
theorem claim_C5_witness :
    ({ mColRow with is_integer := [true], col_upper := [F64.fin 1] } :
      Model).is_integer.get? 0 = some true :=
  ((claim_C5 mColRow 0).2
    { mColRow with is_integer := [true], col_upper := [F64.fin 1] }
    (by decide)).1

/-- C6: `to_raw` issues one integrality call per column — `set_integer c`
when `is_integer[c]` is true and `set_continuous c` when it is false —
reflecting the `is_integer` vector exactly. -/
theorem claim_C6 (m : Model) :
    (m.to_raw).integrality.length = m.is_integer.length ∧
    (∀ c b, m.is_integer.get? c = some b →
      (m.to_raw).integrality.get? c =
        some (if b then IntCall.setInteger c
          else IntCall.setContinuous c)) := by
  have hint : (m.to_raw).integrality = integralityCalls m.is_integer := rfl
  constructor
  · rw [hint]
    simp [integralityCalls]
  · intro c b hb
    rw [hint]
    unfold integralityCalls
    rw [List.get?_map, List.get?_enum, hb]
    rfl

/-- Witness for C6 on the one-column, one-row model (the continuous
column gets an explicit `set_continuous` call). -/
theorem claim_C6_witness :
    (mColRow.to_raw).integrality.get? 0 =
      some (IntCall.setContinuous 0) :=
  (claim_C6 mColRow).2 0 false (by decide)

/-- C7: `add_col` appends a column with objective coefficient `0`, empty
weight map, integrality flag `false`, bounds `[0, +inf)`, returning the
new column's handle; `add_row` appends a row with bounds `(-inf, +inf)`,
returning the new row's handle; both are total. -/
theorem claim_C7 (m : Model) (hwf : m.WF) :
    (m.add_col).1 = m.num_cols ∧
    (m.add_col).2.obj_coefficients.get? m.num_cols = some (F64.fin 0) ∧
    (m.add_col).2.weights.get? m.num_cols = some [] ∧
    (m.add_col).2.is_integer.get? m.num_cols = some false ∧
    (m.add_col).2.col_lower.get? m.num_cols = some (F64.fin 0) ∧
    (m.add_col).2.col_upper.get? m.num_cols = some F64.inf ∧
    (m.add_row).1 = m.num_rows ∧
    (m.add_row).2.row_lower.get? m.num_rows = some F64.negInf ∧
    (m.add_row).2.row_upper.get? m.num_rows = some F64.inf := by
  obtain ⟨a1, a2, a3, a4, a5, a6, a7⟩ := hwf
  refine ⟨rfl, ?_, ?_, ?_, ?_, ?_, rfl, ?_, ?_⟩
  · show (m.obj_coefficients ++ [F64.fin 0]).get? m.num_cols = _
    rw [← a3]
    exact List.get?_concat_length _ _
  · show (m.weights ++ [[]]).get? m.num_cols = _
    rw [← a4]
    exact List.get?_concat_length _ _
  · show (m.is_integer ++ [false]).get? m.num_cols = _
    rw [← a5]
    exact List.get?_concat_length _ _
  · show (m.col_lower ++ [F64.fin 0]).get? m.num_cols = _
    rw [← a1]
    exact List.get?_concat_length _ _
  · show (m.col_upper ++ [F64.inf]).get? m.num_cols = _
    rw [← a2]
    exact List.get?_concat_length _ _
  · show (m.row_lower ++ [F64.negInf]).get? m.num_rows = _
    rw [← a6]
    exact List.get?_concat_length _ _
  · show (m.row_upper ++ [F64.inf]).get? m.num_rows = _
    rw [← a7]
    exact List.get?_concat_length _ _

/-- Witness for C7 at the one-column, one-row model. -/
theorem claim_C7_witness :
    (mColRow.add_col).2.obj_coefficients.get? mColRow.num_cols =
      some (F64.fin 0) :=
  (claim_C7 mColRow (by decide)).2.1

/-- C8: `set_weight` is idempotent — calling it twice with the same
arguments equals calling it once — and it never changes `num_cols` or
`num_rows`. -/
theorem claim_C8 (m : Model) (row col : Nat) (w : F64)
    (hsw : m.SortedWeights) :
    (m.set_weight row col w).bind (fun m1 => m1.set_weight row col w) =
      m.set_weight row col w ∧
    (∀ m1, m.set_weight row col w = some m1 →
      m1.num_cols = m.num_cols ∧ m1.num_rows = m.num_rows) := by
  constructor
  · cases hget : m.weights.get? col with
    | none =>
      have hnone : m.set_weight row col w = none := by
        unfold Model.set_weight
        rw [hget]
      rw [hnone]
      rfl
    | some wc =>
      have hlt : col < m.weights.length := by
        rcases List.get?_eq_some.mp hget with ⟨hh, _⟩
        exact hh
      have hsorted : WMap.SortedKeys wc := hsw wc (List.get?_mem hget)
      rw [set_weight_eq hget, Option.some_bind]
      have hget1 :
          (m.weights.set col
            (if w.isZero then removeKey row wc
              else insertSorted row w wc)).get? col =
          some (if w.isZero then removeKey row wc
            else insertSorted row w wc) := by
        rw [List.get?_eq_getElem?]
        exact List.getElem?_set_self hlt
      rw [set_weight_eq hget1]
      congr 1
      refine Model.mk.injEq .. ▸ ?_
      simp only [List.set_set, and_true, true_and]
      by_cases hz : w.isZero
      · simp only [if_pos hz]
        rw [removeKey_idem hsorted]
      · simp only [if_neg hz]
        rw [insertSorted_idem]
  · intro m1 h1
    obtain ⟨wc, hget, hm1⟩ := set_weight_some h1
    subst hm1
    exact ⟨rfl, rfl⟩

/-- Witness for C8 on the one-column, one-row model. -/
theorem claim_C8_witness :
    (mColRow.set_weight 0 0 (F64.fin 3)).bind
        (fun m1 => m1.set_weight 0 0 (F64.fin 3)) =
      mColRow.set_weight 0 0 (F64.fin 3) :=
  (claim_C8 mColRow 0 0 (F64.fin 3) (by decide)).1

/-- C9: `set_weight` performs no validation of its row argument: with a
valid column handle it succeeds for every row index — also one at or
beyond `num_rows` — removing or storing the entry under that row index,
and a stored row index flows into the `index` array `to_raw` builds. -/
theorem claim_C9 (m : Model) (row col : Nat) (w : F64)
    (hcol : col < m.weights.length) (hsw : m.SortedWeights) :
    ∃ m2, m.set_weight row col w = some m2 ∧
      (w.isZero = true →
        ∀ wc, m2.weights.get? col = some wc → lookupKey row wc = none) ∧
      (w.isZero = false →
        ∀ wc, m2.weights.get? col = some wc →
          lookupKey row wc = some w ∧ row ∈ (m2.to_raw).index) := by
  have hget : m.weights.get? col = some m.weights[col] := by
    rw [List.get?_eq_getElem?]
    exact List.getElem?_eq_getElem hcol
  have hwc2 : ({ m with
      weights := m.weights.set col
        (if w.isZero then removeKey row m.weights[col]
          else insertSorted row w m.weights[col]) } : Model).weights.get?
        col =
      some (if w.isZero then removeKey row m.weights[col]
        else insertSorted row w m.weights[col]) := by
    rw [List.get?_eq_getElem?]
    exact List.getElem?_set_self (by simpa using hcol)
  refine ⟨_, set_weight_eq hget, ?_, ?_⟩
  · intro hz wc hwc
    rw [if_pos hz] at hwc2 hwc
    cases Option.some.inj (hwc.symm.trans hwc2)
    exact lookupKey_removeKey (hsw _ (List.get?_mem hget))
  · intro hz wc hwc
    rw [if_neg (by simp [hz] : ¬w.isZero = true)] at hwc2 hwc
    cases Option.some.inj (hwc.symm.trans hwc2)
    constructor
    · exact lookupKey_insertSorted row w _
    · have hidx :
          (({ m with
            weights := m.weights.set col
              (if w.isZero then removeKey row m.weights[col]
                else insertSorted row w m.weights[col]) } : Model).to_raw).index =
          ((m.weights.set col
              (if w.isZero then removeKey row m.weights[col]
                else insertSorted row w m.weights[col])).map
            fun u => u.map Prod.fst).flatten := by
        simp [Model.to_raw, cscArrays_eq]
      rw [hidx]
      refine List.mem_flatten.mpr
        ⟨(insertSorted row w m.weights[col]).map Prod.fst, ?_, ?_⟩
      · refine List.mem_map_of_mem _ ?_
        have hmem : (m.weights.set col
            (if w.isZero then removeKey row m.weights[col]
              else insertSorted row w m.weights[col])).get? col =
            some (insertSorted row w m.weights[col]) := by
          rw [List.get?_eq_getElem?, List.getElem?_set_self hcol,
            if_neg (by simp [hz] : ¬w.isZero = true)]
        exact List.get?_mem hmem
      · exact self_mem_insertSorted row w m.weights[col]

/-- Witness for C9: on the one-column, one-row model, `set_weight` with
the out-of-range row index `5` succeeds, stores the entry under row `5`,
and `5` shows up in the assembled `index` array. -/
theorem claim_C9_witness :
    (mColRow.set_weight 5 0 (F64.fin 2)).isSome = true ∧
    lookupKey 5 [(5, F64.fin 2)] = some (F64.fin 2) ∧
    5 ∈ (({ mColRow with weights := [[(5, F64.fin 2)]] } : Model).to_raw).index := by
  obtain ⟨m2, hm2, _, hnz⟩ :=
    claim_C9 mColRow 5 0 (F64.fin 2) (by decide) (by decide)
  have hconc : mColRow.set_weight 5 0 (F64.fin 2) =
      some { mColRow with weights := [[(5, F64.fin 2)]] } := by decide
  rw [hconc] at hm2
  cases Option.some.inj hm2
  refine ⟨by rw [hconc]; rfl, ?_, ?_⟩
  · exact ((hnz (by decide)) [(5, F64.fin 2)] (by decide)).1
  · exact ((hnz (by decide)) [(5, F64.fin 2)] (by decide)).2

/-- C10: `set_weight` decides "zero" by the IEEE comparison with `0.0`:
`-0.0` removes the entry (negative zero compares equal to zero), while
`NaN` compares unequal to `0.0` and is stored, so the row then looks up
to `NaN`. -/
theorem claim_C10 (m : Model) (row col : Nat) (hsw : m.SortedWeights) :
    F64.isZero F64.negZero = true ∧
    F64.isZero F64.nan = false ∧
    (∀ m2, m.set_weight row col F64.negZero = some m2 →
      ∀ wc, m2.weights.get? col = some wc → lookupKey row wc = none) ∧
    (∀ m2, m.set_weight row col F64.nan = some m2 →
      ∀ wc, m2.weights.get? col = some wc →
        lookupKey row wc = some F64.nan) := by
  refine ⟨rfl, rfl, ?_, ?_⟩
  · intro m2 h2 wc hwc
    obtain ⟨wc1, hget1, hget1', _, _⟩ := set_weight_get h2
    rw [if_pos (by decide : F64.negZero.isZero = true)] at hget1'
    cases Option.some.inj (hwc.symm.trans hget1')
    exact lookupKey_removeKey (hsw wc1 (List.get?_mem hget1))
  · intro m2 h2 wc hwc
    obtain ⟨wc1, hget1, hget1', _, _⟩ := set_weight_get h2
    rw [if_neg (by decide : ¬F64.nan.isZero = true)] at hget1'
    cases Option.some.inj (hwc.symm.trans hget1')
    exact lookupKey_insertSorted row F64.nan wc1

/-- Witness for C10 on the one-column, one-row model. -/
theorem claim_C10_witness :
    lookupKey 1 ([] : WMap) = none ∧
    lookupKey 1 [(1, F64.nan)] = some F64.nan :=
  ⟨(claim_C10 mColRow 1 0 (by decide)).2.2.1
      { mColRow with weights := [[]] } (by decide) [] (by decide),
    (claim_C10 mColRow 1 0 (by decide)).2.2.2
      { mColRow with weights := [[(1, F64.nan)]] } (by decide)
      [(1, F64.nan)] (by decide)⟩

theorem setNth_none {α : Type} {l : List α} {i : Nat} {a : α}
    (h : l.length ≤ i) : setNth l i a = none := by
  unfold setNth
  rw [if_neg (by omega)]

theorem setNth_eq {α : Type} {l : List α} {i : Nat} {a : α}
    (h : i < l.length) : setNth l i a = some (l.set i a) := by
  unfold setNth
  rw [if_pos h]

theorem set_integer_eq {m : Model} {col : Nat}
    (h : col < m.is_integer.length) :
    m.set_integer col =
      some { m with is_integer := m.is_integer.set col true } := by
  unfold Model.set_integer
  rw [setNth_eq h]
  rfl

theorem set_col_lower_eq {m : Model} {col : Nat} {v : F64}
    (h : col < m.col_lower.length) :
    m.set_col_lower col v =
      some { m with col_lower := m.col_lower.set col v } := by
  unfold Model.set_col_lower
  rw [setNth_eq h]
  rfl

theorem set_col_upper_eq {m : Model} {col : Nat} {v : F64}
    (h : col < m.col_upper.length) :
    m.set_col_upper col v =
      some { m with col_upper := m.col_upper.set col v } := by
  unfold Model.set_col_upper
  rw [setNth_eq h]
  rfl

/-- C4 as stated is false: `set_weight` never checks its row handle, so a
row index at or beyond `num_rows` does not fault — on the one-column,
one-row model, `set_weight(row 7, col 0, 1.)` succeeds and silently
stores the entry. -/
theorem claim_C4_counterexample :
    mColRow.num_rows ≤ 7 ∧
    mColRow.set_weight 7 0 (F64.fin 1) =
      some { mColRow with weights := [[(7, F64.fin 1)]] } := by
  decide

/-- C4 (amended): every mutator that indexes a Model vector with its
handle faults (`none`) on an out-of-range index — all column-handle
mutators, and `set_row_lower`/`set_row_upper` for rows — and succeeds on
every in-range handle; `set_weight`'s row argument is exempt, being used
only as a map key. -/
theorem claim_C4 (m : Model) (hwf : m.WF) :
    (∀ col, m.num_cols ≤ col →
      (∀ row w, m.set_weight row col w = none) ∧
      m.set_integer col = none ∧
      m.set_continuous col = none ∧
      m.set_binary col = none ∧
      (∀ v, m.set_col_upper col v = none) ∧
      (∀ v, m.set_col_lower col v = none) ∧
      (∀ v, m.set_obj_coeff col v = none)) ∧
    (∀ row, m.num_rows ≤ row →
      (∀ v, m.set_row_upper row v = none) ∧
      (∀ v, m.set_row_lower row v = none)) ∧
    (∀ col, col < m.num_cols →
      (∀ row w, (m.set_weight row col w).isSome = true) ∧
      (m.set_integer col).isSome = true ∧
      (m.set_continuous col).isSome = true ∧
      (m.set_binary col).isSome = true ∧
      (∀ v, (m.set_col_upper col v).isSome = true) ∧
      (∀ v, (m.set_col_lower col v).isSome = true) ∧
      (∀ v, (m.set_obj_coeff col v).isSome = true)) ∧
    (∀ row, row < m.num_rows →
      (∀ v, (m.set_row_upper row v).isSome = true) ∧
      (∀ v, (m.set_row_lower row v).isSome = true)) := by
  obtain ⟨a1, a2, a3, a4, a5, a6, a7⟩ := hwf
  refine ⟨?_, ?_, ?_, ?_⟩
  · intro col hcol
    have hint : m.set_integer col = none := by
      unfold Model.set_integer
      rw [setNth_none (by omega)]
      rfl
    refine ⟨?_, hint, ?_, ?_, ?_, ?_, ?_⟩
    · intro row w
      unfold Model.set_weight
      rw [List.get?_eq_none.mpr (by omega)]
    · unfold Model.set_continuous
      rw [setNth_none (by omega)]
      rfl
    · unfold Model.set_binary
      rw [hint]
      rfl
    · intro v
      unfold Model.set_col_upper
      rw [setNth_none (by omega)]
      rfl
    · intro v
      unfold Model.set_col_lower
      rw [setNth_none (by omega)]
      rfl
    · intro v
      unfold Model.set_obj_coeff
      rw [setNth_none (by omega)]
      rfl
  · intro row hrow
    constructor
    · intro v
      unfold Model.set_row_upper
      rw [setNth_none (by omega)]
      rfl
    · intro v
      unfold Model.set_row_lower
      rw [setNth_none (by omega)]
      rfl
  · intro col hcol
    refine ⟨?_, ?_, ?_, ?_, ?_, ?_, ?_⟩
    · intro row w
      have h1 : col < m.weights.length := by omega
      have hget : m.weights.get? col = some m.weights[col] := by
        rw [List.get?_eq_getElem?]
        exact List.getElem?_eq_getElem h1
      rw [set_weight_eq hget]
      rfl
    · unfold Model.set_integer
      rw [setNth_eq (by omega)]
      rfl
    · unfold Model.set_continuous
      rw [setNth_eq (by omega)]
      rfl
    · have hr1 : col <
          ({ m with is_integer := m.is_integer.set col true } :
            Model).col_lower.length :=
        show col < m.col_lower.length by omega
      have hr2 : col <
          ({ { m with is_integer := m.is_integer.set col true } with
            col_lower :=
              ({ m with is_integer := m.is_integer.set col true } :
                Model).col_lower.set col (F64.fin 0) } :
            Model).col_upper.length :=
        show col < m.col_upper.length by omega
      unfold Model.set_binary
      rw [set_integer_eq (by omega), Option.some_bind,
        set_col_lower_eq hr1, Option.some_bind, set_col_upper_eq hr2]
      rfl
    · intro v
      unfold Model.set_col_upper
      rw [setNth_eq (by omega)]
      rfl
    · intro v
      unfold Model.set_col_lower
      rw [setNth_eq (by omega)]
      rfl
    · intro v
      unfold Model.set_obj_coeff
      rw [setNth_eq (by omega)]
      rfl
  · intro row hrow
    constructor
    · intro v
      unfold Model.set_row_upper
      rw [setNth_eq (by omega)]
      rfl
    · intro v
      unfold Model.set_row_lower
      rw [setNth_eq (by omega)]
      rfl

/-- Witness for the amended C4 on the one-column, one-row model: an
out-of-range column faults, a valid one succeeds. -/
theorem claim_C4_witness :
    mColRow.set_integer 3 = none ∧
    (mColRow.set_integer 0).isSome = true :=
  ⟨((claim_C4 mColRow (by decide)).1 3 (by decide)).2.1,
    ((claim_C4 mColRow (by decide)).2.2.1 0 (by decide)).2.1⟩

end CoinCbc
